import Mathlib

/-!
Shallow embedding of the memorywheel SPSC shared-memory queue
(`src/memorywheel.h`) and of the descriptor-passing receive path
(`src/scm.c`), together with theorems checking the natural-language
specification against the code.

Machine integers are modelled as `Nat` with explicit reductions modulo
`2 ^ 32` (for `whl_offset_t` / `u32`) and `2 ^ 64` (for `size_t` /
`uint64_t`) exactly where the C code performs 32- or 64-bit arithmetic.
The two processes are single-threaded with respect to the wheel, so each
C operation is embedded as a pure state transformer on the wheel state;
atomic loads read the current state and atomic stores / successful
compare-exchanges produce the next state (a compare-exchange performed
with no interleaved writer always succeeds, so the retry loops of
`whl_make_slice` run exactly one iteration in this sequential model).
-/

/-- `WHL_ALIGN`: the alignment quantum, 64 bytes. -/
def WHL_ALIGN : Nat := 64

/-- `WHL_INVALID_OFFSET`: `UINT32_MAX`. -/
def WHL_INVALID_OFFSET : Nat := 2 ^ 32 - 1

/-- `SIZE_MAX` on an LP64 host. -/
def SIZE_MAX : Nat := 2 ^ 64 - 1

/-- 32-bit unsigned addition (wraps modulo `2 ^ 32`). -/
def u32add (a b : Nat) : Nat := (a + b) % 2 ^ 32

/-- 32-bit unsigned subtraction (wraps modulo `2 ^ 32`); assumes the
operands are already reduced representatives below `2 ^ 32`. -/
def u32sub (a b : Nat) : Nat := (a % 2 ^ 32 + 2 ^ 32 - b % 2 ^ 32) % 2 ^ 32

/-- `whl_slice_state_e`. -/
inductive SliceState where
  | uninit
  | readable
  | returned
deriving DecidableEq

/-- `whl_slice_t`: the 16-byte per-slice header. -/
structure WhlSlice where
  trailing_user_size : Nat
  aligned_size_in_wheel : Nat
  state : SliceState
deriving DecidableEq

/-- The contents of the wheel's payload area, as a map from an offset in
`WHL_ALIGN` units to the slice header stored there.  Represented as an
association list, newest binding first; an offset with no binding reads
as all-zero memory (the shared region is zero-initialized), i.e. a slice
header with both sizes `0` and state `UNINIT` (= 0). -/
def memGet (m : List (Nat × WhlSlice)) (o : Nat) : WhlSlice :=
  match m.find? (fun p => p.1 == o) with
  | some p => p.2
  | none => ⟨0, 0, SliceState.uninit⟩

/-- Store a whole slice header at an offset. -/
def memSet (m : List (Nat × WhlSlice)) (o : Nat) (s : WhlSlice) :
    List (Nat × WhlSlice) :=
  (o, s) :: m

/-- Store only the `aligned_size_in_wheel` field of the header at `o`
(the backfill store in `whl_make_slice`). -/
def memSetUnits (m : List (Nat × WhlSlice)) (o v : Nat) :
    List (Nat × WhlSlice) :=
  memSet m o { memGet m o with aligned_size_in_wheel := v }

/-- Store only the `state` field of the header at `o`. -/
def memSetState (m : List (Nat × WhlSlice)) (o : Nat) (st : SliceState) :
    List (Nat × WhlSlice) :=
  memSet m o { memGet m o with state := st }

/-- `whl_offset_pair_t`: the pair of `u32` offsets packed into one `u64`.
The packed word equals `WHL_INVALID_OFFSET_PAIR` (`UINT64_MAX`) exactly
when both halves are `WHL_INVALID_OFFSET`. -/
structure WhlPair where
  head : Nat
  last : Nat
deriving DecidableEq

/-- The pair whose packed `u64` is `WHL_INVALID_OFFSET_PAIR`. -/
def WhlPair.invalid : WhlPair := ⟨WHL_INVALID_OFFSET, WHL_INVALID_OFFSET⟩

/-- `whl_spin_t` together with the contents of the payload area that
follows it: `aligned_size`, the atomic `head`/`last` pair, and the slice
headers living in the buffer. -/
structure Whl where
  aligned_size : Nat
  head : Nat
  last : Nat
  mem : List (Nat × WhlSlice)
deriving DecidableEq

/-- The value the C guard `buf_size >= WHL_ALIGN * UINT32_MAX` actually
compares against: both multiplicands have (promoted) type `unsigned int`,
so the product `64 * 0xffffffff` is computed in 32-bit unsigned
arithmetic and wraps modulo `2 ^ 32` (to `2 ^ 32 - 64`) before being
widened to `size_t` for the comparison. -/
def whlInitSizeBound : Nat := (WHL_ALIGN * (2 ^ 32 - 1)) % 2 ^ 32

/-- `whl_init`: `none` models the non-zero error return, `some` the
initialized header. -/
def whl_init (buf_size : Nat) : Option Whl :=
  if buf_size < 2 * WHL_ALIGN ∨ buf_size % WHL_ALIGN ≠ 0 ∨
      whlInitSizeBound ≤ buf_size then
    none
  else
    some { aligned_size := (buf_size - WHL_ALIGN) / WHL_ALIGN,
           head := WHL_INVALID_OFFSET,
           last := WHL_INVALID_OFFSET,
           mem := [] }

/-- C7: the code's size guard does not implement the claimed bound.
`whl_init` is claimed to fail exactly when `buf_size < 2 * 64`, or
`buf_size` is not a multiple of 64, or `buf_size ≥ 64 * (2 ^ 32 - 1)`.
But the guard multiplies `WHL_ALIGN` by `UINT32_MAX` in 32-bit unsigned
arithmetic, so it wraps to `2 ^ 32 - 64` and the code rejects
`buf_size = 2 ^ 32 - 64` even though that size is a multiple of 64, at
least `2 * 64`, and well below `64 * (2 ^ 32 - 1)` — contradicting both
the claim and the function's own doc comment ("less than 64 * u32 max"). -/
theorem whl_init_guard_overflow :
    whl_init 4294967232 = none ∧
    2 * WHL_ALIGN ≤ 4294967232 ∧
    4294967232 % WHL_ALIGN = 0 ∧
    4294967232 < WHL_ALIGN * (2 ^ 32 - 1) := by
  refine ⟨?_, by decide, by decide, by decide⟩
  rfl

/-- `__whl_next_offset_aligned`: choose a free offset for a slice of
`size` `WHL_ALIGN`-units given a snapshot `pair` of `head_last`.  All
arithmetic on offsets is 32-bit unsigned, exactly as in the C. -/
def next_offset_aligned (w : Whl) (size : Nat) (pair : WhlPair) : Nat :=
  if pair.head = WHL_INVALID_OFFSET ∧ pair.last = WHL_INVALID_OFFSET then
    if size ≤ w.aligned_size then 0 else WHL_INVALID_OFFSET
  else
    let head := pair.head
    let last := pair.last
    let last_end := u32add last (memGet w.mem last).aligned_size_in_wheel
    if last < head then
      if size ≤ u32sub head last_end then last_end else WHL_INVALID_OFFSET
    else
      if size ≤ u32sub w.aligned_size last_end then last_end
      else if size ≤ head then 0
      else WHL_INVALID_OFFSET

/-- The offset-selection policy exactly as the claim words it, with plain
(non-wrapping) natural-number arithmetic.  `units` stands for the last
slice's `aligned_size_in_wheel`. -/
def claimNextOffset (alignedSize units size : Nat) (pair : WhlPair) : Nat :=
  if pair.head = WHL_INVALID_OFFSET ∧ pair.last = WHL_INVALID_OFFSET then
    if size ≤ alignedSize then 0 else WHL_INVALID_OFFSET
  else
    let last_end := pair.last + units
    if pair.last < pair.head then
      if size ≤ pair.head - last_end then last_end else WHL_INVALID_OFFSET
    else
      if size ≤ alignedSize - last_end then last_end
      else if size ≤ pair.head then 0
      else WHL_INVALID_OFFSET

/-- C1: the offset chosen by the allocator agrees with the claimed
three-case policy.  The hypotheses say the snapshot is made of in-range
`u32` values and that the wheel is in a sane configuration (the end of
the last slice does not overflow, and lies below `head` after a wrap and
below `aligned_size` otherwise), which is exactly the regime in which
the claim's plain subtractions `head − last_end` and
`aligned_size − last_end` denote the C's unsigned subtractions. -/
theorem next_offset_aligned_policy (w : Whl) (size : Nat) (pair : WhlPair)
    (hh : pair.head < 2 ^ 32) (hl : pair.last < 2 ^ 32)
    (ha : w.aligned_size < 2 ^ 32)
    (hov : pair.last + (memGet w.mem pair.last).aligned_size_in_wheel < 2 ^ 32)
    (hwrap : pair.last < pair.head →
      pair.last + (memGet w.mem pair.last).aligned_size_in_wheel ≤ pair.head)
    (hfit : ¬(pair.head = WHL_INVALID_OFFSET ∧ pair.last = WHL_INVALID_OFFSET) →
      pair.head ≤ pair.last →
      pair.last + (memGet w.mem pair.last).aligned_size_in_wheel ≤ w.aligned_size) :
    next_offset_aligned w size pair =
      claimNextOffset w.aligned_size
        (memGet w.mem pair.last).aligned_size_in_wheel size pair := by
  unfold next_offset_aligned claimNextOffset
  by_cases hinv : pair.head = WHL_INVALID_OFFSET ∧ pair.last = WHL_INVALID_OFFSET
  · simp [hinv]
  · simp only [if_neg hinv]
    have hadd : u32add pair.last (memGet w.mem pair.last).aligned_size_in_wheel
        = pair.last + (memGet w.mem pair.last).aligned_size_in_wheel := by
      unfold u32add; omega
    rw [hadd]
    by_cases hlt : pair.last < pair.head
    · have hle := hwrap hlt
      have hsub : u32sub pair.head
          (pair.last + (memGet w.mem pair.last).aligned_size_in_wheel)
          = pair.head - (pair.last + (memGet w.mem pair.last).aligned_size_in_wheel) := by
        unfold u32sub; omega
      simp [hlt, hsub]
    · have hle := hfit hinv (by omega)
      have hsub : u32sub w.aligned_size
          (pair.last + (memGet w.mem pair.last).aligned_size_in_wheel)
          = w.aligned_size - (pair.last + (memGet w.mem pair.last).aligned_size_in_wheel) := by
        unfold u32sub; omega
      simp [hlt, hsub]

/-- Witness for C1 at a concrete input: a wheel of 3 units whose last
slice occupies [1, 2), snapshot `(head, last) = (0, 1)`, asking for one
unit; both the code and the claimed policy place it at offset 2. -/
theorem next_offset_aligned_policy_witness :
    next_offset_aligned ⟨3, 0, 1, [(1, ⟨16, 1, SliceState.readable⟩)]⟩ 1 ⟨0, 1⟩ =
      claimNextOffset 3 (memGet [(1, ⟨16, 1, SliceState.readable⟩)] 1).aligned_size_in_wheel
        1 ⟨0, 1⟩ :=
  next_offset_aligned_policy ⟨3, 0, 1, [(1, ⟨16, 1, SliceState.readable⟩)]⟩ 1 ⟨0, 1⟩
    (by decide) (by decide) (by decide) (by decide) (by decide) (by decide)

/-- The byte offset (from the start of the shared region) of the user
payload of the slice at wheel offset `off`: one `WHL_ALIGN` header
quantum, then `off` `WHL_ALIGN` units, then the 16-byte slice header
(`__whl_buf` and `__whl_slice_buf`).  Stands in for the pointer the C
functions hand back. -/
def payloadAddr (off : Nat) : Nat := WHL_ALIGN + WHL_ALIGN * off + 16

/-- `__whl_alignment_padding`. -/
def whl_alignment_padding (sz : Nat) : Nat :=
  (WHL_ALIGN - sz % WHL_ALIGN) % WHL_ALIGN

/-- `whl_align`. -/
def whl_align (size : Nat) : Nat := size + whl_alignment_padding size

/-- The `aligned_size_in_wheel` value `whl_make_slice` computes for a
request of `size` bytes: `sizeof(whl_slice_t) + size` rounded up to a
multiple of `WHL_ALIGN` (in `size_t` arithmetic), divided by `WHL_ALIGN`,
then truncated to `whl_offset_t`. -/
def needUnits (size : Nat) : Nat :=
  ((16 + size + whl_alignment_padding (16 + size)) % 2 ^ 64 / WHL_ALIGN) % 2 ^ 32

/-- One shared-memory write performed by `whl_make_slice`, in program
order: the backfill store to the old last slice's
`aligned_size_in_wheel`, the non-atomic write of the new slice header,
and the store / compare-exchange publishing the new `head_last` pair. -/
inductive WhlEvent where
  | backfill (off units : Nat)
  | writeHeader (off : Nat) (s : WhlSlice)
  | storePair (p : WhlPair)
deriving DecidableEq

/-- Result of `whl_make_slice`: the new wheel state, the returned
offset, the out-parameter `*bufp` (`none` when it is left untouched),
and the ordered trace of shared-memory writes the call performed. -/
structure MakeResult where
  wheel : Whl
  offset : Nat
  buf : Option Nat
  trace : List WhlEvent
deriving DecidableEq

/-- `whl_make_slice`.  Sequential embedding: the pair loaded at the top
is the current state, and the publish loop's compare-exchange succeeds
on its first iteration because no concurrent writer runs inside the
call. -/
def whl_make_slice (w : Whl) (size : Nat) : MakeResult :=
  if SIZE_MAX - 16 < size then ⟨w, WHL_INVALID_OFFSET, none, []⟩
  else
    let asz := needUnits size
    let pair : WhlPair := ⟨w.head, w.last⟩
    let offset := next_offset_aligned w asz pair
    if offset = WHL_INVALID_OFFSET then ⟨w, WHL_INVALID_OFFSET, none, []⟩
    else
      let backUnits := u32sub w.aligned_size pair.last
      let m1 := if offset = 0 ∧ pair.last ≠ WHL_INVALID_OFFSET then
                  memSetUnits w.mem pair.last backUnits
                else w.mem
      let t1 : List WhlEvent :=
                if offset = 0 ∧ pair.last ≠ WHL_INVALID_OFFSET then
                  [WhlEvent.backfill pair.last backUnits]
                else []
      let hdr : WhlSlice := ⟨size, asz, SliceState.uninit⟩
      let m2 := memSet m1 offset hdr
      let p' : WhlPair :=
        if pair.head = WHL_INVALID_OFFSET ∧ pair.last = WHL_INVALID_OFFSET then
          ⟨offset, offset⟩
        else ⟨pair.head, offset⟩
      ⟨⟨w.aligned_size, p'.head, p'.last, m2⟩, offset, some (payloadAddr offset),
       t1 ++ [WhlEvent.writeHeader offset hdr, WhlEvent.storePair p']⟩

/-- `whl_share_slice`. -/
def whl_share_slice (w : Whl) (off : Nat) : Whl :=
  { w with mem := memSetState w.mem off SliceState.readable }

/-- Result of `whl_next_shared_slice`: the (unchanged) wheel state, the
returned offset, and the out-parameters (`none` when left untouched). -/
structure PeekResult where
  wheel : Whl
  offset : Nat
  buf : Option Nat
  size : Option Nat
deriving DecidableEq

/-- `whl_next_shared_slice`. -/
def whl_next_shared_slice (w : Whl) : PeekResult :=
  if w.head = WHL_INVALID_OFFSET then ⟨w, WHL_INVALID_OFFSET, none, none⟩
  else
    let slice := memGet w.mem w.head
    if slice.state ≠ SliceState.readable then ⟨w, WHL_INVALID_OFFSET, none, none⟩
    else ⟨w, w.head, some (payloadAddr w.head), some slice.trailing_user_size⟩

/-- The head-advance loop of `whl_return_slice`, operating on the
`head_last` pair; the slice states are not changed by the loop, so the
memory is passed through read-only.  `fuel` bounds the iteration count
(the C loop is unbounded; every reachable state needs at most
`aligned_size + 1` iterations). -/
def returnLoop (asz : Nat) (m : List (Nat × WhlSlice)) :
    Nat → WhlPair → Nat → WhlPair × Nat
  | 0, p, n => (p, n)
  | fuel + 1, p, n =>
    if p.head = WHL_INVALID_OFFSET then (p, n)
    else if (memGet m p.head).state ≠ SliceState.returned then (p, n)
    else if p.head = p.last then
      returnLoop asz m fuel WhlPair.invalid (n + 1)
    else
      returnLoop asz m fuel
        ⟨(p.head + (memGet m p.head).aligned_size_in_wheel) % asz, p.last⟩
        (n + 1)

/-- `whl_return_slice`: returns the new wheel state and the reclaim
count. -/
def whl_return_slice (w : Whl) (off : Nat) : Whl × Nat :=
  if (memGet w.mem off).state = SliceState.returned then (w, 0)
  else
    let m1 := memSetState w.mem off SliceState.returned
    let r := returnLoop w.aligned_size m1 (w.aligned_size + 1) ⟨w.head, w.last⟩ 0
    (⟨w.aligned_size, r.1.head, r.1.last, m1⟩, r.2)

/-- Reading back the offset just stored to. -/
theorem memGet_memSet_same (m : List (Nat × WhlSlice)) (o : Nat) (s : WhlSlice) :
    memGet (memSet m o s) o = s := by
  simp [memGet, memSet, List.find?]

/-- Stores to one offset leave the headers at other offsets unchanged. -/
theorem memGet_memSet_ne (m : List (Nat × WhlSlice)) (o : Nat) (s : WhlSlice)
    (o' : Nat) (h : o' ≠ o) : memGet (memSet m o s) o' = memGet m o' := by
  have : (o == o') = false := by simp [Ne.symm h]
  simp [memGet, memSet, List.find?, this]

/-- For any representable request, the slice footprint is at least one
unit and fits in a `u32`. -/
theorem needUnits_pos (size : Nat) (h : size < 2 ^ 32) :
    1 ≤ needUnits size ∧ needUnits size < 2 ^ 32 := by
  unfold needUnits whl_alignment_padding WHL_ALIGN
  omega

/-- C2: when `whl_make_slice` wraps (selects offset 0 while the loaded
pair is valid), it grows the old last slice's `aligned_size_in_wheel` to
`aligned_size - last`; the write trace shows the backfill store strictly
precedes the new slice's header write, which precedes the `head_last`
update; and the consumer's head-walk step from the old last slice,
`(last + wheel_units) % aligned_size`, lands exactly on the new slice's
offset 0. -/
theorem make_slice_wrap_backfill (w : Whl) (size : Nat)
    (hh : w.head ≠ WHL_INVALID_OFFSET) (hl : w.last ≠ WHL_INVALID_OFFSET)
    (ha2 : w.aligned_size < 2 ^ 32)
    (hlb : w.last ≤ w.aligned_size)
    (hunits : 1 ≤ (memGet w.mem w.last).aligned_size_in_wheel)
    (hov : w.last + (memGet w.mem w.last).aligned_size_in_wheel < 2 ^ 32)
    (hsz : size < 2 ^ 32)
    (hoff : (whl_make_slice w size).offset = 0) :
    (memGet (whl_make_slice w size).wheel.mem w.last).aligned_size_in_wheel
        = w.aligned_size - w.last ∧
    (whl_make_slice w size).trace
        = [WhlEvent.backfill w.last (w.aligned_size - w.last),
           WhlEvent.writeHeader 0 ⟨size, needUnits size, SliceState.uninit⟩,
           WhlEvent.storePair ⟨w.head, 0⟩] ∧
    (w.last + (w.aligned_size - w.last)) % w.aligned_size = 0 := by
  have hguard : ¬(SIZE_MAX - 16 < size) := by unfold SIZE_MAX; omega
  have hpair : ¬(w.head = WHL_INVALID_OFFSET ∧ w.last = WHL_INVALID_OFFSET) := by
    tauto
  have hsel : next_offset_aligned w (needUnits size) ⟨w.head, w.last⟩ = 0 := by
    by_contra hne
    rcases eq_or_ne (next_offset_aligned w (needUnits size) ⟨w.head, w.last⟩)
        WHL_INVALID_OFFSET with hiv | hv
    · rw [whl_make_slice, if_neg hguard] at hoff
      simp only [hiv] at hoff
      simp at hoff
      exact absurd hoff (by decide)
    · rw [whl_make_slice, if_neg hguard] at hoff
      simp only [if_neg hv] at hoff
      exact hne hoff
  -- the selected offset 0 with a valid pair can only come from the wrap
  -- sub-branch, so `needUnits size ≤ w.head` and in particular `w.last ≠ 0`
  have hnu := needUnits_pos size hsz
  have hlast_pos : w.last ≠ 0 := by
    have hle : u32add w.last (memGet w.mem w.last).aligned_size_in_wheel
        = w.last + (memGet w.mem w.last).aligned_size_in_wheel := by
      unfold u32add; omega
    rw [next_offset_aligned] at hsel
    simp only [if_neg hpair, hle] at hsel
    by_cases hlt : w.last < w.head
    · simp only [if_pos hlt] at hsel
      split at hsel
      · omega
      · exact absurd hsel (by decide)
    · simp only [if_neg hlt] at hsel
      split at hsel
      · omega
      · split at hsel
        · omega
        · exact absurd hsel (by decide)
  -- now compute the result of whl_make_slice
  have hres : whl_make_slice w size =
      ⟨⟨w.aligned_size, w.head, 0,
        memSet (memSetUnits w.mem w.last (u32sub w.aligned_size w.last)) 0
          ⟨size, needUnits size, SliceState.uninit⟩⟩, 0, some (payloadAddr 0),
       [WhlEvent.backfill w.last (u32sub w.aligned_size w.last),
        WhlEvent.writeHeader 0 ⟨size, needUnits size, SliceState.uninit⟩,
        WhlEvent.storePair ⟨w.head, 0⟩]⟩ := by
    rw [whl_make_slice, if_neg hguard]
    simp only [hsel, if_neg (show (0:Nat) ≠ WHL_INVALID_OFFSET by decide),
      if_pos (show (0:Nat) = 0 ∧ w.last ≠ WHL_INVALID_OFFSET from ⟨rfl, hl⟩),
      if_neg hpair]
    simp [hl]
  have hback : u32sub w.aligned_size w.last = w.aligned_size - w.last := by
    unfold u32sub; omega
  rw [hres, hback]
  refine ⟨?_, rfl, ?_⟩
  · rw [memGet_memSet_ne _ _ _ _ hlast_pos]
    rw [memSetUnits, memGet_memSet_same]
  · rw [Nat.add_sub_cancel' hlb, Nat.mod_self]

/-- Witness for C2: a 3-unit wheel whose single live slice sits at
offset 1 with 2 units; allocating one more unit wraps to offset 0 and
backfills the slice at 1. -/
theorem make_slice_wrap_backfill_witness :
    (memGet (whl_make_slice ⟨3, 1, 1, [(1, ⟨16, 2, SliceState.readable⟩)]⟩ 16).wheel.mem
        1).aligned_size_in_wheel = 3 - 1 ∧
    (whl_make_slice ⟨3, 1, 1, [(1, ⟨16, 2, SliceState.readable⟩)]⟩ 16).trace
        = [WhlEvent.backfill 1 (3 - 1),
           WhlEvent.writeHeader 0 ⟨16, needUnits 16, SliceState.uninit⟩,
           WhlEvent.storePair ⟨1, 0⟩] ∧
    (1 + (3 - 1)) % 3 = 0 :=
  make_slice_wrap_backfill ⟨3, 1, 1, [(1, ⟨16, 2, SliceState.readable⟩)]⟩ 16
    (by decide) (by decide) (by decide) (by decide) (by decide) (by decide)
    (by decide) (by decide)

/-- C5: `whl_next_shared_slice` returns `WHL_INVALID_OFFSET` exactly when
`head` is invalid or the head slice's state is not `READABLE`; otherwise
it returns the head offset and exposes the payload pointer and
`user_size`; it leaves the wheel state unchanged, and a repeated call is
identical (idempotence). -/
theorem next_shared_slice_spec (w : Whl) :
    (whl_next_shared_slice w).wheel = w ∧
    whl_next_shared_slice w =
      (if w.head = WHL_INVALID_OFFSET ∨
          (memGet w.mem w.head).state ≠ SliceState.readable then
        ⟨w, WHL_INVALID_OFFSET, none, none⟩
      else
        ⟨w, w.head, some (payloadAddr w.head),
         some (memGet w.mem w.head).trailing_user_size⟩) ∧
    ((whl_next_shared_slice w).offset = WHL_INVALID_OFFSET ↔
      (w.head = WHL_INVALID_OFFSET ∨
       (memGet w.mem w.head).state ≠ SliceState.readable)) ∧
    whl_next_shared_slice ((whl_next_shared_slice w).wheel) =
      whl_next_shared_slice w := by
  have he : whl_next_shared_slice w =
      (if w.head = WHL_INVALID_OFFSET ∨
          (memGet w.mem w.head).state ≠ SliceState.readable then
        ⟨w, WHL_INVALID_OFFSET, none, none⟩
      else
        ⟨w, w.head, some (payloadAddr w.head),
         some (memGet w.mem w.head).trailing_user_size⟩) := by
    unfold whl_next_shared_slice
    by_cases h1 : w.head = WHL_INVALID_OFFSET
    · simp [h1]
    · by_cases h2 : (memGet w.mem w.head).state = SliceState.readable
      · simp [h1, h2]
      · simp [h1, h2]
  have hw : (whl_next_shared_slice w).wheel = w := by
    rw [he]
    by_cases h : w.head = WHL_INVALID_OFFSET ∨
        (memGet w.mem w.head).state ≠ SliceState.readable
    · rw [if_pos h]
    · rw [if_neg h]
  refine ⟨hw, he, ?_, by rw [hw]⟩
  rw [he]
  by_cases h : w.head = WHL_INVALID_OFFSET ∨
      (memGet w.mem w.head).state ≠ SliceState.readable
  · rw [if_pos h]
    exact ⟨fun _ => h, fun _ => rfl⟩
  · rw [if_neg h]
    constructor
    · intro hbad
      exact absurd (Or.inl hbad) h
    · intro hh
      exact absurd hh h

/-- One call against the spin wheel: the four operations of the
protocol, with arbitrary arguments. -/
inductive WhlOp where
  | make (size : Nat)
  | share (off : Nat)
  | peek
  | ret (off : Nat)

/-- The state transformer of one operation (return values discarded). -/
def whlStep (w : Whl) : WhlOp → Whl
  | WhlOp.make size => (whl_make_slice w size).wheel
  | WhlOp.share off => whl_share_slice w off
  | WhlOp.peek => (whl_next_shared_slice w).wheel
  | WhlOp.ret off => (whl_return_slice w off).1

/-- Run a sequence of operations from a starting state. -/
def whlRun (w : Whl) (ops : List WhlOp) : Whl := ops.foldl whlStep w

/-- The protocol invariant carried through the induction: the size field
is in range (it is immutable after `whl_init`) and `head` and `last` are
simultaneously valid or simultaneously invalid. -/
def WhlInv (w : Whl) : Prop :=
  1 ≤ w.aligned_size ∧ w.aligned_size ≤ 2 ^ 32 - 1 ∧
    (w.head = WHL_INVALID_OFFSET ↔ w.last = WHL_INVALID_OFFSET)

/-- The head-advance loop never stores `WHL_INVALID_OFFSET` into `head`
except by clearing the whole pair, so it preserves the pair validity
invariant. -/
theorem returnLoop_pair_valid (asz : Nat) (m : List (Nat × WhlSlice))
    (h1 : 1 ≤ asz) (h2 : asz ≤ 2 ^ 32 - 1) :
    ∀ (fuel : Nat) (p : WhlPair) (n : Nat),
      (p.head = WHL_INVALID_OFFSET ↔ p.last = WHL_INVALID_OFFSET) →
      ((returnLoop asz m fuel p n).1.head = WHL_INVALID_OFFSET ↔
       (returnLoop asz m fuel p n).1.last = WHL_INVALID_OFFSET) := by
  intro fuel
  induction fuel with
  | zero => intro p n hp; exact hp
  | succ fuel ih =>
    intro p n hp
    rw [returnLoop]
    by_cases hh : p.head = WHL_INVALID_OFFSET
    · simp only [if_pos hh]
      exact hp
    · simp only [if_neg hh]
      by_cases hs : (memGet m p.head).state ≠ SliceState.returned
      · simp only [if_pos hs]
        exact hp
      · simp only [if_neg hs]
        by_cases hl : p.head = p.last
        · simp only [if_pos hl]
          exact ih WhlPair.invalid (n + 1) (by constructor <;> intro <;> rfl)
        · simp only [if_neg hl]
          apply ih
          constructor
          · intro habs
            exfalso
            have habs' : (p.head + (memGet m p.head).aligned_size_in_wheel) % asz
                = WHL_INVALID_OFFSET := habs
            have hmod : (p.head + (memGet m p.head).aligned_size_in_wheel) % asz < asz :=
              Nat.mod_lt _ (by omega)
            unfold WHL_INVALID_OFFSET at habs'
            omega
          · intro habs
            have habs' : p.last = WHL_INVALID_OFFSET := habs
            exact absurd habs' (fun hlast => hh (hp.mpr hlast))

/-- Shape of the state produced by `whl_make_slice`: either the wheel is
untouched (failure), or a non-invalid offset was published, as the whole
pair `(o, o)` if the loaded pair was invalid, and as `(head, o)` with
the loaded `head` kept otherwise. -/
theorem make_slice_wheel_shape (w : Whl) (size : Nat) :
    (whl_make_slice w size).wheel = w ∨
    ∃ o m, o ≠ WHL_INVALID_OFFSET ∧
      ((whl_make_slice w size).wheel = ⟨w.aligned_size, o, o, m⟩ ∨
       (¬(w.head = WHL_INVALID_OFFSET ∧ w.last = WHL_INVALID_OFFSET) ∧
        (whl_make_slice w size).wheel = ⟨w.aligned_size, w.head, o, m⟩)) := by
  by_cases hguard : SIZE_MAX - 16 < size
  · left
    rw [whl_make_slice, if_pos hguard]
  · by_cases ho : next_offset_aligned w (needUnits size) ⟨w.head, w.last⟩
        = WHL_INVALID_OFFSET
    · left
      rw [whl_make_slice, if_neg hguard]
      simp only [ho]
      simp
    · right
      by_cases hb : w.head = WHL_INVALID_OFFSET ∧ w.last = WHL_INVALID_OFFSET
      · refine ⟨next_offset_aligned w (needUnits size) ⟨w.head, w.last⟩,
          memSet
            (if next_offset_aligned w (needUnits size) ⟨w.head, w.last⟩ = 0 ∧
                w.last ≠ WHL_INVALID_OFFSET then
              memSetUnits w.mem w.last (u32sub w.aligned_size w.last)
            else w.mem)
            (next_offset_aligned w (needUnits size) ⟨w.head, w.last⟩)
            ⟨size, needUnits size, SliceState.uninit⟩, ho, Or.inl ?_⟩
        rw [whl_make_slice, if_neg hguard]
        simp only [if_neg ho, if_pos hb]
      · refine ⟨next_offset_aligned w (needUnits size) ⟨w.head, w.last⟩,
          memSet
            (if next_offset_aligned w (needUnits size) ⟨w.head, w.last⟩ = 0 ∧
                w.last ≠ WHL_INVALID_OFFSET then
              memSetUnits w.mem w.last (u32sub w.aligned_size w.last)
            else w.mem)
            (next_offset_aligned w (needUnits size) ⟨w.head, w.last⟩)
            ⟨size, needUnits size, SliceState.uninit⟩, ho, Or.inr ⟨hb, ?_⟩⟩
        rw [whl_make_slice, if_neg hguard]
        simp only [if_neg ho, if_neg hb]

/-- `whl_next_shared_slice` performs no shared-memory write. -/
theorem next_shared_slice_wheel (w : Whl) : (whl_next_shared_slice w).wheel = w := by
  unfold whl_next_shared_slice
  by_cases h1 : w.head = WHL_INVALID_OFFSET
  · simp [h1]
  · by_cases h2 : (memGet w.mem w.head).state = SliceState.readable
    · simp [h1, h2]
    · simp [h1, h2]

/-- One protocol operation preserves the invariant. -/
theorem whlStep_inv (w : Whl) (op : WhlOp) (h : WhlInv w) : WhlInv (whlStep w op) := by
  obtain ⟨h1, h2, h3⟩ := h
  cases op with
  | make size =>
    rcases make_slice_wheel_shape w size with heq | ⟨o, m, ho, heq | ⟨hb, heq⟩⟩
    · rw [whlStep, heq]
      exact ⟨h1, h2, h3⟩
    · rw [whlStep, heq]
      exact ⟨h1, h2, Iff.rfl⟩
    · rw [whlStep, heq]
      refine ⟨h1, h2, ?_⟩
      have hhd : w.head ≠ WHL_INVALID_OFFSET := fun hx => hb ⟨hx, h3.mp hx⟩
      exact ⟨fun hx => absurd hx hhd, fun hx => absurd hx ho⟩
  | share off =>
    exact ⟨h1, h2, h3⟩
  | peek =>
    rw [whlStep, next_shared_slice_wheel]
    exact ⟨h1, h2, h3⟩
  | ret off =>
    rw [whlStep, whl_return_slice]
    by_cases hr : (memGet w.mem off).state = SliceState.returned
    · rw [if_pos hr]
      exact ⟨h1, h2, h3⟩
    · rw [if_neg hr]
      exact ⟨h1, h2,
        returnLoop_pair_valid w.aligned_size
          (memSetState w.mem off SliceState.returned) h1 h2
          (w.aligned_size + 1) ⟨w.head, w.last⟩ 0 h3⟩

/-- Any run from an invariant-satisfying state keeps the invariant. -/
theorem whlRun_inv (ops : List WhlOp) :
    ∀ (w : Whl), WhlInv w → WhlInv (whlRun w ops) := by
  induction ops with
  | nil => intro w h; exact h
  | cons op ops ih =>
    intro w h
    exact ih (whlStep w op) (whlStep_inv w op h)

/-- C3: in every state reachable from a freshly initialized wheel by any
sequence of `whl_make_slice`, `whl_share_slice`, `whl_next_shared_slice`
and `whl_return_slice` calls, `head` is `WHL_INVALID_OFFSET` exactly
when `last` is. -/
theorem head_last_both_valid_or_invalid (buf_size : Nat) (w0 : Whl)
    (ops : List WhlOp) (hinit : whl_init buf_size = some w0) :
    ((whlRun w0 ops).head = WHL_INVALID_OFFSET ↔
     (whlRun w0 ops).last = WHL_INVALID_OFFSET) := by
  have hinv : WhlInv w0 := by
    rw [whl_init] at hinit
    split at hinit
    · exact absurd hinit (by simp)
    · rename_i hcond
      rw [Option.some_inj] at hinit
      subst hinit
      unfold WHL_ALIGN whlInitSizeBound at hcond
      refine ⟨?_, ?_, Iff.rfl⟩
      · show 1 ≤ (buf_size - 64) / 64
        omega
      · show (buf_size - 64) / 64 ≤ 2 ^ 32 - 1
        omega
  exact (whlRun_inv ops w0 hinv).2.2

/-- Witness for C3: a wheel initialized with a 128-byte buffer, after an
allocate / publish / return round trip, has both offsets invalid. -/
theorem head_last_both_valid_or_invalid_witness :
    ((whlRun ⟨1, WHL_INVALID_OFFSET, WHL_INVALID_OFFSET, []⟩
        [WhlOp.make 16, WhlOp.share 0, WhlOp.ret 0]).head = WHL_INVALID_OFFSET ↔
     (whlRun ⟨1, WHL_INVALID_OFFSET, WHL_INVALID_OFFSET, []⟩
        [WhlOp.make 16, WhlOp.share 0, WhlOp.ret 0]).last = WHL_INVALID_OFFSET) :=
  head_last_both_valid_or_invalid 128
    ⟨1, WHL_INVALID_OFFSET, WHL_INVALID_OFFSET, []⟩
    [WhlOp.make 16, WhlOp.share 0, WhlOp.ret 0] (by decide)

/-- The chain of live slices: the offsets visited by walking from `cur`
via `next := (cur + wheel_units(cur)) % aligned_size` until `last` is
reached; `none` if `last` is not reached within `fuel` steps. -/
def chainOffsets (asz : Nat) (m : List (Nat × WhlSlice)) :
    Nat → Nat → Nat → Option (List Nat)
  | 0, _, _ => none
  | fuel + 1, cur, last =>
    if cur = last then some [cur]
    else
      match chainOffsets asz m fuel
          ((cur + (memGet m cur).aligned_size_in_wheel) % asz) last with
      | some l => some (cur :: l)
      | none => none

/-- The number of slices in the maximal all-`RETURNED` prefix of the
chain. -/
def reclaimCount (m : List (Nat × WhlSlice)) : List Nat → Nat
  | [] => 0
  | o :: rest =>
    if (memGet m o).state = SliceState.returned then reclaimCount m rest + 1
    else 0

/-- The `head_last` pair after reclaiming that prefix: the invalid pair
if the whole chain was reclaimed, else the first not-`RETURNED` chain
offset together with the unchanged `last`. -/
def reclaimPair (m : List (Nat × WhlSlice)) (last : Nat) : List Nat → WhlPair
  | [] => WhlPair.invalid
  | o :: rest =>
    if (memGet m o).state = SliceState.returned then reclaimPair m last rest
    else ⟨o, last⟩

/-- A chain found within `fuel` steps has at most `fuel` offsets. -/
theorem chainOffsets_length (asz : Nat) (m : List (Nat × WhlSlice)) :
    ∀ (fuel cur last : Nat) (l : List Nat),
      chainOffsets asz m fuel cur last = some l → l.length ≤ fuel := by
  intro fuel
  induction fuel with
  | zero => intro cur last l h; exact absurd h (by simp [chainOffsets])
  | succ fuel ih =>
    intro cur last l h
    rw [chainOffsets] at h
    by_cases hcl : cur = last
    · rw [if_pos hcl, Option.some_inj] at h
      subst h
      simp
    · rw [if_neg hcl] at h
      rcases hrec : chainOffsets asz m fuel
          ((cur + (memGet m cur).aligned_size_in_wheel) % asz) last with _ | l'
      · rw [hrec] at h
        exact absurd h (by simp)
      · rw [hrec, Option.some_inj] at h
        subst h
        have := ih _ _ _ hrec
        simp
        omega

/-- Once the pair is invalid the loop stops immediately. -/
theorem returnLoop_invalid_stops (asz : Nat) (m : List (Nat × WhlSlice)) :
    ∀ (fuel n : Nat),
      returnLoop asz m fuel WhlPair.invalid n = (WhlPair.invalid, n) := by
  intro fuel n
  cases fuel with
  | zero => rfl
  | succ fuel =>
    rw [returnLoop]
    simp [WhlPair.invalid]

/-- The head-advance loop of `whl_return_slice` computes exactly the
maximal-returned-prefix reclaim described by the spec: given a complete
chain from `cur` to `last`, it returns the reclaim pair and adds the
reclaim count. -/
theorem returnLoop_reclaim (asz : Nat) (m : List (Nat × WhlSlice))
    (h1 : 1 ≤ asz) (h2 : asz ≤ 2 ^ 32 - 1) :
    ∀ (cfuel cur last : Nat) (chain : List Nat) (fuel n : Nat),
      chainOffsets asz m cfuel cur last = some chain →
      cur ≠ WHL_INVALID_OFFSET →
      chain.length < fuel →
      returnLoop asz m fuel ⟨cur, last⟩ n =
        (reclaimPair m last chain, n + reclaimCount m chain) := by
  intro cfuel
  induction cfuel with
  | zero =>
    intro cur last chain fuel n hchain
    exact absurd hchain (by simp [chainOffsets])
  | succ cfuel ih =>
    intro cur last chain fuel n hchain hcur hfuel
    rw [chainOffsets] at hchain
    by_cases hcl : cur = last
    · rw [if_pos hcl, Option.some_inj] at hchain
      subst hchain
      obtain ⟨fuel, rfl⟩ : ∃ f, fuel = f + 1 := by
        cases fuel with
        | zero => exact absurd hfuel (by simp)
        | succ f => exact ⟨f, rfl⟩
      rw [returnLoop, if_neg hcur]
      by_cases hst : (memGet m cur).state = SliceState.returned
      · rw [if_neg (by simpa using hst)]
        rw [if_pos hcl]
        rw [returnLoop_invalid_stops]
        simp [reclaimPair, reclaimCount, hst]
      · rw [if_pos (by simpa using hst)]
        simp [reclaimPair, reclaimCount, hst]
    · rw [if_neg hcl] at hchain
      rcases hrec : chainOffsets asz m cfuel
          ((cur + (memGet m cur).aligned_size_in_wheel) % asz) last with _ | l
      · rw [hrec] at hchain
        exact absurd hchain (by simp)
      · rw [hrec, Option.some_inj] at hchain
        subst hchain
        obtain ⟨fuel, rfl⟩ : ∃ f, fuel = f + 1 := by
          cases fuel with
          | zero => exact absurd hfuel (by simp)
          | succ f => exact ⟨f, rfl⟩
        rw [returnLoop, if_neg hcur]
        by_cases hst : (memGet m cur).state = SliceState.returned
        · rw [if_neg (by simpa using hst)]
          rw [if_neg hcl]
          have hnext : (cur + (memGet m cur).aligned_size_in_wheel) % asz
              ≠ WHL_INVALID_OFFSET := by
            have := Nat.mod_lt (cur + (memGet m cur).aligned_size_in_wheel)
              (show 0 < asz by omega)
            unfold WHL_INVALID_OFFSET
            omega
          rw [ih _ _ _ _ _ hrec hnext (by simp at hfuel ⊢; omega)]
          simp only [reclaimPair, reclaimCount, if_pos hst]
          congr 1
          omega
        · rw [if_pos (by simpa using hst)]
          simp [reclaimPair, reclaimCount, hst]

/-- C4: `whl_return_slice` marks the slice `RETURNED`; if it was already
`RETURNED` it reclaims nothing and leaves the wheel untouched; otherwise
it advances `head` past exactly the maximal all-`RETURNED` prefix of the
live-slice chain from `head` to `last` (walking
`head := (head + wheel_units) % aligned_size`, and clearing the pair to
the invalid pair when the whole chain — ending at `head = last` — is
reclaimed), returning the number of slices reclaimed. -/
theorem return_slice_reclaims (w : Whl) (off : Nat) (chain : List Nat)
    (h1 : 1 ≤ w.aligned_size) (h2 : w.aligned_size ≤ 2 ^ 32 - 1)
    (hhead : w.head ≠ WHL_INVALID_OFFSET)
    (hchain : chainOffsets w.aligned_size
        (memSetState w.mem off SliceState.returned)
        w.aligned_size w.head w.last = some chain) :
    ((memGet w.mem off).state = SliceState.returned →
      whl_return_slice w off = (w, 0)) ∧
    ((memGet w.mem off).state ≠ SliceState.returned →
      whl_return_slice w off =
        (⟨w.aligned_size,
          (reclaimPair (memSetState w.mem off SliceState.returned) w.last
            chain).head,
          (reclaimPair (memSetState w.mem off SliceState.returned) w.last
            chain).last,
          memSetState w.mem off SliceState.returned⟩,
         reclaimCount (memSetState w.mem off SliceState.returned) chain)) ∧
    (memGet (whl_return_slice w off).1.mem off).state = SliceState.returned := by
  have hlen : chain.length < w.aligned_size + 1 := by
    have := chainOffsets_length w.aligned_size
      (memSetState w.mem off SliceState.returned) w.aligned_size w.head w.last
      chain hchain
    omega
  have hloop := returnLoop_reclaim w.aligned_size
    (memSetState w.mem off SliceState.returned) h1 h2
    w.aligned_size w.head w.last chain (w.aligned_size + 1) 0 hchain hhead hlen
  refine ⟨?_, ?_, ?_⟩
  · intro hret
    rw [whl_return_slice, if_pos hret]
  · intro hret
    rw [whl_return_slice, if_neg hret]
    simp only [hloop]
    simp
  · by_cases hret : (memGet w.mem off).state = SliceState.returned
    · rw [whl_return_slice, if_pos hret]
      exact hret
    · rw [whl_return_slice, if_neg hret]
      simp only [hloop]
      show (memGet (memSetState w.mem off SliceState.returned) off).state
        = SliceState.returned
      rw [memSetState, memGet_memSet_same]

/-- Witness for C4: a 2-unit wheel holding two published 1-unit slices
at offsets 0 and 1, `head = 0`, `last = 1`; returning offset 0 reclaims
one slice and advances `head` to 1. -/
theorem return_slice_reclaims_witness :
    ((memGet [(0, (⟨16, 1, SliceState.readable⟩ : WhlSlice)),
        (1, ⟨16, 1, SliceState.readable⟩)] 0).state = SliceState.returned →
      whl_return_slice
        ⟨2, 0, 1, [(0, ⟨16, 1, SliceState.readable⟩),
          (1, ⟨16, 1, SliceState.readable⟩)]⟩ 0 =
        (⟨2, 0, 1, [(0, ⟨16, 1, SliceState.readable⟩),
          (1, ⟨16, 1, SliceState.readable⟩)]⟩, 0)) ∧
    ((memGet [(0, (⟨16, 1, SliceState.readable⟩ : WhlSlice)),
        (1, ⟨16, 1, SliceState.readable⟩)] 0).state ≠ SliceState.returned →
      whl_return_slice
        ⟨2, 0, 1, [(0, ⟨16, 1, SliceState.readable⟩),
          (1, ⟨16, 1, SliceState.readable⟩)]⟩ 0 =
        (⟨2,
          (reclaimPair (memSetState [(0, ⟨16, 1, SliceState.readable⟩),
            (1, ⟨16, 1, SliceState.readable⟩)] 0 SliceState.returned) 1
            [0, 1]).head,
          (reclaimPair (memSetState [(0, ⟨16, 1, SliceState.readable⟩),
            (1, ⟨16, 1, SliceState.readable⟩)] 0 SliceState.returned) 1
            [0, 1]).last,
          memSetState [(0, ⟨16, 1, SliceState.readable⟩),
            (1, ⟨16, 1, SliceState.readable⟩)] 0 SliceState.returned⟩,
         reclaimCount (memSetState [(0, ⟨16, 1, SliceState.readable⟩),
            (1, ⟨16, 1, SliceState.readable⟩)] 0 SliceState.returned) [0, 1])) ∧
    (memGet (whl_return_slice
        ⟨2, 0, 1, [(0, ⟨16, 1, SliceState.readable⟩),
          (1, ⟨16, 1, SliceState.readable⟩)]⟩ 0).1.mem 0).state
      = SliceState.returned :=
  return_slice_reclaims
    ⟨2, 0, 1, [(0, ⟨16, 1, SliceState.readable⟩),
      (1, ⟨16, 1, SliceState.readable⟩)]⟩ 0 [0, 1]
    (by decide) (by decide) (by decide) (by decide)

/-- `whl_atomic_t`: the spin wheel plus the two edge-detected flags of
the eventfd layer.  The two eventfd counters themselves are kernel
objects outside the shared state; the protocol treats the flags as the
source of truth, and only flag behaviour is claimed. -/
structure WhlAtomic where
  spin : Whl
  is_readable : Bool
  is_writable : Bool
deriving DecidableEq

/-- `whl_atomic_init`. -/
def whl_atomic_init (buf_size : Nat) : Option WhlAtomic :=
  (whl_init buf_size).map fun s => ⟨s, false, true⟩

/-- `whl_efd_make_slice`: on failure the flag `is_writable` is exchanged
to 0 (the eventfd write happens only on the 1 → 0 edge and does not
affect the flag). -/
def whl_efd_make_slice (w : WhlAtomic) (size : Nat) : WhlAtomic × Nat :=
  let r := whl_make_slice w.spin size
  if r.offset = WHL_INVALID_OFFSET then
    (⟨r.wheel, w.is_readable, false⟩, WHL_INVALID_OFFSET)
  else (⟨r.wheel, w.is_readable, w.is_writable⟩, r.offset)

/-- `whl_efd_share_slice`: `is_readable` is exchanged to 1. -/
def whl_efd_share_slice (w : WhlAtomic) (off : Nat) : WhlAtomic :=
  ⟨whl_share_slice w.spin off, true, w.is_writable⟩

/-- `whl_efd_next_shared_slice`: on failure `is_readable` is exchanged
to 0. -/
def whl_efd_next_shared_slice (w : WhlAtomic) : WhlAtomic × PeekResult :=
  let r := whl_next_shared_slice w.spin
  if r.offset = WHL_INVALID_OFFSET then
    (⟨r.wheel, false, w.is_writable⟩, r)
  else (⟨r.wheel, w.is_readable, w.is_writable⟩, r)

/-- `whl_efd_return_slice`: `is_writable` is exchanged to 1. -/
def whl_efd_return_slice (w : WhlAtomic) (off : Nat) : WhlAtomic × Nat :=
  let r := whl_return_slice w.spin off
  (⟨r.1, w.is_readable, true⟩, r.2)

/-- One call against the eventfd-layer wheel. -/
inductive EfdOp where
  | make (size : Nat)
  | share (off : Nat)
  | peek
  | ret (off : Nat)

/-- The outcome of one eventfd-layer call, as far as the two flags are
concerned. -/
inductive EfdEvent where
  | madeOk
  | madeFailed
  | shared
  | peekOk
  | peekFailed
  | returned
deriving DecidableEq

/-- Step one eventfd-layer operation, recording its outcome. -/
def efdStep (w : WhlAtomic) : EfdOp → WhlAtomic × EfdEvent
  | EfdOp.make size =>
    let r := whl_efd_make_slice w size
    (r.1, if r.2 = WHL_INVALID_OFFSET then EfdEvent.madeFailed else EfdEvent.madeOk)
  | EfdOp.share off => (whl_efd_share_slice w off, EfdEvent.shared)
  | EfdOp.peek =>
    let r := whl_efd_next_shared_slice w
    (r.1, if r.2.offset = WHL_INVALID_OFFSET then EfdEvent.peekFailed
          else EfdEvent.peekOk)
  | EfdOp.ret off => ((whl_efd_return_slice w off).1, EfdEvent.returned)

/-- Run a sequence of eventfd-layer operations, collecting the outcome
trace in order. -/
def runEfd : WhlAtomic → List EfdOp → WhlAtomic × List EfdEvent
  | w, [] => (w, [])
  | w, op :: ops =>
    let s := efdStep w op
    let r := runEfd s.1 ops
    (r.1, s.2 :: r.2)

/-- Events that touch `is_readable`: shares (1) and failed peeks (0). -/
def readableEvent : EfdEvent → Bool
  | EfdEvent.shared => true
  | EfdEvent.peekFailed => true
  | _ => false

/-- Events that touch `is_writable`: failed allocations (0) and returns
(1). -/
def writableEvent : EfdEvent → Bool
  | EfdEvent.madeFailed => true
  | EfdEvent.returned => true
  | _ => false

/-- The value of `is_readable` determined by the outcome history: 1 iff
the most recent event among shares and failed peeks is a share (0
initially). -/
def readableOfHistory (evs : List EfdEvent) : Bool :=
  match evs.reverse.find? readableEvent with
  | some EfdEvent.shared => true
  | _ => false

/-- The value of `is_writable` determined by the outcome history: 1 iff
the most recent event among failed allocations and returns is not a
failed allocation (1 initially). -/
def writableOfHistory (evs : List EfdEvent) : Bool :=
  match evs.reverse.find? writableEvent with
  | some EfdEvent.madeFailed => false
  | _ => true

/-- C6 is false as stated: after `whl_efd_make_slice 16`,
`whl_efd_share_slice 0` and `whl_efd_return_slice 0` on a wheel built by
`whl_atomic_init 128`, the wheel is empty again, so the consumer's next
peek (`whl_efd_next_shared_slice`) would fail — yet `is_readable` is
still 1, because returning a slice never touches `is_readable`.  The
reported pair is `(is_readable, offset a peek would now return)`. -/
theorem efd_readable_flag_counterexample :
    (whl_atomic_init 128).map (fun w0 =>
      let w := (runEfd w0 [EfdOp.make 16, EfdOp.share 0, EfdOp.ret 0]).1
      (w.is_readable, (whl_efd_next_shared_slice w).2.offset))
      = some (true, WHL_INVALID_OFFSET) := by
  decide

/-- Appending one event updates the readable-history flag only when the
event touches `is_readable`. -/
theorem readableOfHistory_append (evs : List EfdEvent) (e : EfdEvent) :
    readableOfHistory (evs ++ [e]) =
      (match e with
       | EfdEvent.shared => true
       | EfdEvent.peekFailed => false
       | _ => readableOfHistory evs) := by
  cases e <;> simp [readableOfHistory, readableEvent, List.find?]

/-- Appending one event updates the writable-history flag only when the
event touches `is_writable`. -/
theorem writableOfHistory_append (evs : List EfdEvent) (e : EfdEvent) :
    writableOfHistory (evs ++ [e]) =
      (match e with
       | EfdEvent.madeFailed => false
       | EfdEvent.returned => true
       | _ => writableOfHistory evs) := by
  cases e <;> simp [writableOfHistory, writableEvent, List.find?]

/-- One step keeps the flags in sync with the outcome history. -/
theorem efdStep_flags (w : WhlAtomic) (op : EfdOp) (evs : List EfdEvent)
    (hr : w.is_readable = readableOfHistory evs)
    (hw : w.is_writable = writableOfHistory evs) :
    (efdStep w op).1.is_readable = readableOfHistory (evs ++ [(efdStep w op).2]) ∧
    (efdStep w op).1.is_writable = writableOfHistory (evs ++ [(efdStep w op).2]) := by
  cases op with
  | make size =>
    rw [efdStep]
    by_cases h : (whl_efd_make_slice w size).2 = WHL_INVALID_OFFSET
    · simp only [if_pos h, readableOfHistory_append, writableOfHistory_append]
      constructor
      · rw [whl_efd_make_slice] at h ⊢
        by_cases h2 : (whl_make_slice w.spin size).offset = WHL_INVALID_OFFSET
        · simp only [if_pos h2]
          exact hr
        · simp only [if_neg h2]
          exact hr
      · rw [whl_efd_make_slice]
        by_cases h2 : (whl_make_slice w.spin size).offset = WHL_INVALID_OFFSET
        · simp only [if_pos h2]
        · exfalso
          rw [whl_efd_make_slice, if_neg h2] at h
          exact h2 h
    · simp only [if_neg h, readableOfHistory_append, writableOfHistory_append]
      constructor
      · rw [whl_efd_make_slice] at h ⊢
        by_cases h2 : (whl_make_slice w.spin size).offset = WHL_INVALID_OFFSET
        · simp only [if_pos h2]
          exact hr
        · simp only [if_neg h2]
          exact hr
      · rw [whl_efd_make_slice] at h ⊢
        by_cases h2 : (whl_make_slice w.spin size).offset = WHL_INVALID_OFFSET
        · exfalso
          rw [if_pos h2] at h
          exact h rfl
        · simp only [if_neg h2]
          exact hw
  | share off =>
    rw [efdStep]
    simp only [readableOfHistory_append, writableOfHistory_append]
    exact ⟨rfl, hw⟩
  | peek =>
    by_cases h2 : (whl_next_shared_slice w.spin).offset = WHL_INVALID_OFFSET
    · have he : efdStep w EfdOp.peek
          = (⟨(whl_next_shared_slice w.spin).wheel, false, w.is_writable⟩,
             EfdEvent.peekFailed) := by
        rw [efdStep, whl_efd_next_shared_slice, if_pos h2]
        simp [h2]
      rw [he]
      refine ⟨?_, ?_⟩
      · rw [readableOfHistory_append]
      · rw [writableOfHistory_append]
        exact hw
    · have he : efdStep w EfdOp.peek
          = (⟨(whl_next_shared_slice w.spin).wheel, w.is_readable,
             w.is_writable⟩, EfdEvent.peekOk) := by
        rw [efdStep, whl_efd_next_shared_slice, if_neg h2]
        simp [h2]
      rw [he]
      refine ⟨?_, ?_⟩
      · rw [readableOfHistory_append]
        exact hr
      · rw [writableOfHistory_append]
        exact hw
  | ret off =>
    rw [efdStep]
    simp only [readableOfHistory_append, writableOfHistory_append]
    exact ⟨hr, rfl⟩

/-- A run keeps the flags in sync with the accumulated outcome history. -/
theorem runEfd_flags (ops : List EfdOp) :
    ∀ (w : WhlAtomic) (evs : List EfdEvent),
      w.is_readable = readableOfHistory evs →
      w.is_writable = writableOfHistory evs →
      (runEfd w ops).1.is_readable = readableOfHistory (evs ++ (runEfd w ops).2) ∧
      (runEfd w ops).1.is_writable = writableOfHistory (evs ++ (runEfd w ops).2) := by
  induction ops with
  | nil =>
    intro w evs hr hw
    rw [runEfd]
    constructor
    · show w.is_readable = readableOfHistory (evs ++ [])
      rw [List.append_nil]
      exact hr
    · show w.is_writable = writableOfHistory (evs ++ [])
      rw [List.append_nil]
      exact hw
  | cons op ops ih =>
    intro w evs hr hw
    obtain ⟨hr1, hw1⟩ := efdStep_flags w op evs hr hw
    obtain ⟨hr2, hw2⟩ := ih (efdStep w op).1 (evs ++ [(efdStep w op).2]) hr1 hw1
    rw [runEfd]
    constructor
    · show (runEfd (efdStep w op).1 ops).1.is_readable
        = readableOfHistory
            (evs ++ ((efdStep w op).2 :: (runEfd (efdStep w op).1 ops).2))
      rw [show evs ++ ((efdStep w op).2 :: (runEfd (efdStep w op).1 ops).2)
          = (evs ++ [(efdStep w op).2]) ++ (runEfd (efdStep w op).1 ops).2 by
        simp]
      exact hr2
    · show (runEfd (efdStep w op).1 ops).1.is_writable
        = writableOfHistory
            (evs ++ ((efdStep w op).2 :: (runEfd (efdStep w op).1 ops).2))
      rw [show evs ++ ((efdStep w op).2 :: (runEfd (efdStep w op).1 ops).2)
          = (evs ++ [(efdStep w op).2]) ++ (runEfd (efdStep w op).1 ops).2 by
        simp]
      exact hw2

/-- C6 amended: in every state of the eventfd-layer wheel reachable from
`whl_atomic_init` by eventfd-layer operations, the flags are determined
by the *edge-detected history* of outcomes rather than by the current
wheel state: `is_readable` is 1 iff the most recent event among
share-slice calls and failed peeks is a share (0 if neither has
occurred), and `is_writable` is 1 iff the most recent event among failed
allocations and return-slice calls is not a failed allocation (1 if
neither has occurred). -/
theorem efd_flags_match_history (buf_size : Nat) (w0 : WhlAtomic)
    (ops : List EfdOp) (hinit : whl_atomic_init buf_size = some w0) :
    (runEfd w0 ops).1.is_readable = readableOfHistory (runEfd w0 ops).2 ∧
    (runEfd w0 ops).1.is_writable = writableOfHistory (runEfd w0 ops).2 := by
  have h0 : w0.is_readable = false ∧ w0.is_writable = true := by
    rw [whl_atomic_init] at hinit
    cases h : whl_init buf_size with
    | none => rw [h] at hinit; exact absurd hinit (by simp)
    | some s =>
      rw [h, Option.map_some', Option.some_inj] at hinit
      subst hinit
      exact ⟨rfl, rfl⟩
  obtain ⟨hra, hwa⟩ := runEfd_flags ops w0 [] h0.1 h0.2
  rw [List.nil_append] at hra hwa
  exact ⟨hra, hwa⟩

/-- Witness for C6 (amended): a run with a failed allocation and a
return on a 2-quanta wheel; the flags match the history functions. -/
theorem efd_flags_match_history_witness :
    (runEfd ⟨⟨1, WHL_INVALID_OFFSET, WHL_INVALID_OFFSET, []⟩, false, true⟩
        [EfdOp.make 16, EfdOp.share 0, EfdOp.make 16, EfdOp.peek,
         EfdOp.ret 0]).1.is_readable =
      readableOfHistory (runEfd ⟨⟨1, WHL_INVALID_OFFSET, WHL_INVALID_OFFSET, []⟩,
        false, true⟩ [EfdOp.make 16, EfdOp.share 0, EfdOp.make 16, EfdOp.peek,
         EfdOp.ret 0]).2 ∧
    (runEfd ⟨⟨1, WHL_INVALID_OFFSET, WHL_INVALID_OFFSET, []⟩, false, true⟩
        [EfdOp.make 16, EfdOp.share 0, EfdOp.make 16, EfdOp.peek,
         EfdOp.ret 0]).1.is_writable =
      writableOfHistory (runEfd ⟨⟨1, WHL_INVALID_OFFSET, WHL_INVALID_OFFSET, []⟩,
        false, true⟩ [EfdOp.make 16, EfdOp.share 0, EfdOp.make 16, EfdOp.peek,
         EfdOp.ret 0]).2 :=
  efd_flags_match_history 128
    ⟨⟨1, WHL_INVALID_OFFSET, WHL_INVALID_OFFSET, []⟩, false, true⟩
    [EfdOp.make 16, EfdOp.share 0, EfdOp.make 16, EfdOp.peek, EfdOp.ret 0]
    (by decide)

/-- `SOL_SOCKET` (Linux value; only (in)equality with the received
control-message level matters). -/
def SOL_SOCKET : Nat := 1

/-- `SCM_RIGHTS` (Linux value; only (in)equality matters). -/
def SCM_RIGHTS : Nat := 1

/-- The ancillary control message of a received datagram: its level and
type and the descriptor array it carries. -/
structure CMsg where
  cmsg_level : Nat
  cmsg_type : Nat
  fds : List Int
deriving DecidableEq

/-- What `recvmsg` handed back for one `recv_fds_with_data` call: the
return value (payload byte count, or negative on error) and the first
control message, if any. -/
structure Datagram where
  ret : Int
  cmsg : Option CMsg
deriving DecidableEq

/-- The control message is absent or not `SOL_SOCKET`/`SCM_RIGHTS`. -/
def badCmsg : Option CMsg → Bool
  | none => true
  | some c => decide (¬(c.cmsg_level = SOL_SOCKET ∧ c.cmsg_type = SCM_RIGHTS))

/-- Result of `recv_fds_with_data`.  `nullDeref` records whether the
execution wrote through a null `n_outfds` pointer (the C would crash
there); `countWritten` is the value stored through `n_outfds` (`none`
when nothing was stored); `outfds` the descriptors copied to the caller;
`closed` the surplus descriptors silently closed. -/
structure RecvResult where
  nullDeref : Bool
  countWritten : Option Nat
  outfds : List Int
  closed : List Int
  ret : Int
deriving DecidableEq

/-- `recv_fds_with_data`, as a function of the received datagram.  The
out-pointer `n_outfds` is `none` for NULL.  Note the asymmetry taken
from the code: the no-control-message branch stores `0` through
`n_outfds` unconditionally, while the copy path guards its store with
`if (n_outfds)`. -/
def recv_fds_with_data (n_outfds : Option Nat) (d : Datagram) : RecvResult :=
  let maxfds : Nat := n_outfds.getD 0
  if d.ret < 0 then ⟨false, none, [], [], d.ret⟩
  else
    match d.cmsg with
    | some c =>
      if c.cmsg_level = SOL_SOCKET ∧ c.cmsg_type = SCM_RIGHTS then
        let i := min maxfds c.fds.length
        ⟨false, if n_outfds.isSome then some i else none,
         c.fds.take i, c.fds.drop i, d.ret⟩
      else ⟨n_outfds.isNone, if n_outfds.isSome then some 0 else none,
            [], [], d.ret⟩
    | none => ⟨n_outfds.isNone, if n_outfds.isSome then some 0 else none,
               [], [], d.ret⟩

/-- C9: whenever the received datagram carries no control message, or
one whose level/type is not `SOL_SOCKET`/`SCM_RIGHTS`, the call stores
`0` as the received-handle count and still returns the non-negative
payload byte count as success. -/
theorem recv_bad_cmsg_zero_count (n : Nat) (d : Datagram)
    (hret : 0 ≤ d.ret) (hbad : badCmsg d.cmsg = true) :
    (recv_fds_with_data (some n) d).countWritten = some 0 ∧
    (recv_fds_with_data (some n) d).ret = d.ret ∧
    0 ≤ (recv_fds_with_data (some n) d).ret := by
  rw [recv_fds_with_data]
  rw [if_neg (by omega)]
  cases hc : d.cmsg with
  | none => exact ⟨rfl, rfl, hret⟩
  | some c =>
    have hne : ¬(c.cmsg_level = SOL_SOCKET ∧ c.cmsg_type = SCM_RIGHTS) := by
      rw [hc] at hbad
      have := of_decide_eq_true hbad
      exact this
    simp [hne, hret]

/-- Witness for C9: a one-byte datagram with no control message,
received with room for four handles. -/
theorem recv_bad_cmsg_zero_count_witness :
    (recv_fds_with_data (some 4) ⟨1, none⟩).countWritten = some 0 ∧
    (recv_fds_with_data (some 4) ⟨1, none⟩).ret = (⟨1, none⟩ : Datagram).ret ∧
    0 ≤ (recv_fds_with_data (some 4) ⟨1, none⟩).ret :=
  recv_bad_cmsg_zero_count 4 ⟨1, none⟩ (by decide) (by decide)

/-- C10: `recv_fds_with_data` is free of null-pointer dereference
exactly under the precondition `n_outfds ≠ NULL`.  With a null
`n_outfds` the normal receive path treats the maximum as zero and copies
no handles, but the missing/wrong-family branch writes the count through
the null pointer — it dereferences null precisely when the receive
succeeded and the control message is absent or of the wrong family
(e.g. a one-byte datagram with no control message); with a non-null
`n_outfds` no input dereferences null. -/
theorem recv_null_deref_characterization :
    (recv_fds_with_data none ⟨1, none⟩).nullDeref = true ∧
    (∀ (d : Datagram), (recv_fds_with_data none d).nullDeref =
      (decide (0 ≤ d.ret) && badCmsg d.cmsg)) ∧
    (∀ (d : Datagram), (recv_fds_with_data none d).outfds = []) ∧
    (∀ (n : Nat) (d : Datagram),
      (recv_fds_with_data (some n) d).nullDeref = false) := by
  refine ⟨by decide, ?_, ?_, ?_⟩
  · intro d
    rw [recv_fds_with_data]
    by_cases hret : d.ret < 0
    · rw [if_pos hret, show (decide (0 ≤ d.ret)) = false by simpa using hret]
      rfl
    · rw [if_neg hret,
        show (decide (0 ≤ d.ret)) = true by simpa using not_lt.mp hret]
      cases d.cmsg with
      | none => simp [badCmsg]
      | some c =>
        by_cases hok : c.cmsg_level = SOL_SOCKET ∧ c.cmsg_type = SCM_RIGHTS
        · simp [badCmsg, hok]
        · simp [badCmsg, hok]
  · intro d
    rw [recv_fds_with_data]
    by_cases hret : d.ret < 0
    · rw [if_pos hret]
    · rw [if_neg hret]
      cases d.cmsg with
      | none => rfl
      | some c =>
        by_cases hok : c.cmsg_level = SOL_SOCKET ∧ c.cmsg_type = SCM_RIGHTS
        · simp [hok]
        · simp [hok]
  · intro n d
    rw [recv_fds_with_data]
    by_cases hret : d.ret < 0
    · rw [if_pos hret]
    · rw [if_neg hret]
      cases d.cmsg with
      | none => rfl
      | some c =>
        by_cases hok : c.cmsg_level = SOL_SOCKET ∧ c.cmsg_type = SCM_RIGHTS
        · simp [hok]
        · simp [hok]
